import Mathlib

/-!
Verification of the robust-semantic-agent core against its specification.

The definitions below are a shallow embedding of the Python source:

* `core/semantics.py` : Belnap four-valued logic (bit-level operations).
* `risk/cvar.py`      : empirical and weighted CVaR.
* `core/belief.py`    : log-space particle belief (observation update,
  message update, normalization, systematic resampling).
* `core/messages.py`  : `Message` and `SourceTrust`.
* `core/credal.py`    : credal sets and lower expectations.
* `safety/cbf.py` and `policy/agent.py` : the QP safety filter's
  status / exception handling and the agent's use of its result.

Machine floats are idealised as exact rationals or reals; numpy array
values become lists or `Fin`-indexed functions.
-/

namespace RSA

/-! ## Belnap four-valued logic (`core/semantics.py`)

The Python enum `BelnapValue(IntEnum)` encodes the four values in two bits
(falsity_bit, truth_bit): NEITHER = 0b00, TRUE = 0b01, FALSE = 0b10,
BOTH = 0b11.  The lattice operations manipulate those bits directly. -/

inductive BelnapValue where
  | NEITHER
  | TRUE
  | FALSE
  | BOTH
deriving DecidableEq

namespace BelnapValue

/-- Two-bit integer code of a Belnap value, as in the Python `IntEnum`. -/
def encode : BelnapValue → ℕ
  | NEITHER => 0
  | TRUE => 1
  | FALSE => 2
  | BOTH => 3

/-- Inverse of `encode` on the four codes produced by the bit operations. -/
def decode : ℕ → BelnapValue
  | 0 => NEITHER
  | 1 => TRUE
  | 2 => FALSE
  | _ => BOTH

instance : Fintype BelnapValue where
  elems := {NEITHER, TRUE, FALSE, BOTH}
  complete := by intro x; cases x <;> decide

end BelnapValue

open BelnapValue in
/-- Truth-preserving conjunction: min on truth bits, max on falsity bits
(`and_t` in `core/semantics.py`). -/
def and_t (x y : BelnapValue) : BelnapValue :=
  let tb := min (encode x &&& 1) (encode y &&& 1)
  let fb := max ((encode x &&& 2) >>> 1) ((encode y &&& 2) >>> 1)
  decode ((fb <<< 1) ||| tb)

open BelnapValue in
/-- Truth-preserving disjunction: max on truth bits, min on falsity bits
(`or_t` in `core/semantics.py`). -/
def or_t (x y : BelnapValue) : BelnapValue :=
  let tb := max (encode x &&& 1) (encode y &&& 1)
  let fb := min ((encode x &&& 2) >>> 1) ((encode y &&& 2) >>> 1)
  decode ((fb <<< 1) ||| tb)

open BelnapValue in
/-- Negation: swap the truth and falsity bits (`not_t` in `core/semantics.py`). -/
def not_t (x : BelnapValue) : BelnapValue :=
  decode (((encode x &&& 1) <<< 1) ||| ((encode x &&& 2) >>> 1))

open BelnapValue in
/-- Knowledge-lattice meet, bitwise AND (`consensus` in `core/semantics.py`). -/
def consensus (x y : BelnapValue) : BelnapValue :=
  decode (encode x &&& encode y)

open BelnapValue in
/-- Knowledge-lattice join, bitwise OR (`gullibility` in `core/semantics.py`). -/
def gullibility (x y : BelnapValue) : BelnapValue :=
  decode (encode x ||| encode y)

end RSA

namespace RSA

/-! ## Empirical CVaR (`risk/cvar.py`, function `cvar`)

`cvar(values, alpha)` sorts ascending and averages the first
`max(1, ceil(alpha * n))` entries.  numpy's sort is modelled by
Mathlib's insertion sort with `≤`, and the mean of a list by
`sum / length`. -/

/-- Arithmetic mean of a list, `np.mean`; division by zero only arises on
the empty list, which the claims exclude. -/
def listMean (l : List ℚ) : ℚ := l.sum / l.length

/-- Empirical CVaR at level `alpha` (`cvar` in `risk/cvar.py`):
sort ascending, average the first `max(1, ceil(alpha * n))` values. -/
def cvar (values : List ℚ) (alpha : ℚ) : ℚ :=
  let n := values.length
  let cutoff := max 1 (Int.toNat ⌈alpha * n⌉)
  let sorted := values.insertionSort (· ≤ ·)
  listMean (sorted.take cutoff)

end RSA

namespace RSA

/-- C4: for all Belnap values the twelve algebraic laws hold:
commutativity of `and_t`, `or_t`, `consensus`, `gullibility`;
associativity of `and_t` and `or_t`; both absorption laws; involution of
`not_t`; both De Morgan laws; and the identities `x and_t TRUE = x`,
`x or_t FALSE = x`, `x consensus BOTH = x`. -/
theorem belnap_algebraic_laws :
    (∀ x y : BelnapValue, and_t x y = and_t y x) ∧
    (∀ x y : BelnapValue, or_t x y = or_t y x) ∧
    (∀ x y : BelnapValue, consensus x y = consensus y x) ∧
    (∀ x y : BelnapValue, gullibility x y = gullibility y x) ∧
    (∀ x y z : BelnapValue, and_t (and_t x y) z = and_t x (and_t y z)) ∧
    (∀ x y z : BelnapValue, or_t (or_t x y) z = or_t x (or_t y z)) ∧
    (∀ x y : BelnapValue, and_t x (or_t x y) = x) ∧
    (∀ x y : BelnapValue, or_t x (and_t x y) = x) ∧
    (∀ x : BelnapValue, not_t (not_t x) = x) ∧
    (∀ x y : BelnapValue, not_t (and_t x y) = or_t (not_t x) (not_t y)) ∧
    (∀ x y : BelnapValue, not_t (or_t x y) = and_t (not_t x) (not_t y)) ∧
    (∀ x : BelnapValue, and_t x BelnapValue.TRUE = x) ∧
    (∀ x : BelnapValue, or_t x BelnapValue.FALSE = x) ∧
    (∀ x : BelnapValue, consensus x BelnapValue.BOTH = x) := by
  decide

end RSA

namespace RSA

lemma seg_length (l : List ℚ) (k k' : ℕ) (hkk : k ≤ k') (hk' : k' ≤ l.length) :
    ((l.drop k).take (k' - k)).length = k' - k := by
  rw [List.length_take, List.length_drop]
  omega

lemma take_k_append (l : List ℚ) (k k' : ℕ) (hkk : k ≤ k') :
    l.take k' = l.take k ++ (l.drop k).take (k' - k) := by
  rw [← List.take_add]
  congr 1
  omega

lemma sorted_take_le_drop (l : List ℚ) (hs : l.Sorted (· ≤ ·)) (k : ℕ) :
    ∀ x ∈ l.take k, ∀ y ∈ l.drop k, x ≤ y := by
  have h := hs
  rw [List.Sorted, ← List.take_append_drop k l, List.pairwise_append] at h
  exact h.2.2

lemma sum_map_mul_const (c : ℚ) (l : List ℚ) :
    (l.map fun y => c * y).sum = c * l.sum := by
  induction l with
  | nil => simp
  | cons a t ih => simp [List.map_cons, List.sum_cons, ih]; ring

/-- The mean of the first `k` entries of a `≤`-sorted list is monotone in `k`
(within the list).  This is the heart of CVaR monotonicity in the tail level. -/
lemma prefixMean_mono (l : List ℚ) (hs : l.Sorted (· ≤ ·)) (k k' : ℕ)
    (hk : 1 ≤ k) (hkk : k ≤ k') (hk' : k' ≤ l.length) :
    listMean (l.take k) ≤ listMean (l.take k') := by
  have hkl : k ≤ l.length := le_trans hkk hk'
  set seg : List ℚ := (l.drop k).take (k' - k) with hseg
  have happ : l.take k' = l.take k ++ seg := take_k_append l k k' hkk
  have hlen_take : (l.take k).length = k := List.length_take_of_le hkl
  have hlen_take' : (l.take k').length = k' := List.length_take_of_le hk'
  have hlen_seg : seg.length = k' - k := seg_length l k k' hkk hk'
  set S : ℚ := (l.take k).sum with hS
  set T : ℚ := seg.sum with hT
  -- every element of the segment dominates the whole prefix sum
  have hdom : ∀ y ∈ seg, S ≤ (k : ℚ) * y := by
    intro y hy
    have hy' : y ∈ l.drop k := List.mem_of_mem_take hy
    have hb : ∀ x ∈ l.take k, x ≤ y := fun x hx =>
      sorted_take_le_drop l hs k x hx y hy'
    have := List.sum_le_card_nsmul (l.take k) y hb
    rwa [hlen_take, nsmul_eq_mul] at this
  -- summing over the segment: (k' - k) * S ≤ k * T
  have hsum : ((k' - k : ℕ) : ℚ) * S ≤ (k : ℚ) * T := by
    have h1 : (seg.map fun _ => S).sum ≤ (seg.map fun y => (k : ℚ) * y).sum := by
      apply List.sum_le_sum
      intro y hy
      exact hdom y hy
    have h2 : (seg.map fun _ => S).sum = (seg.length : ℚ) * S := by
      rw [List.map_const', List.sum_replicate, nsmul_eq_mul]
    have h3 : (seg.map fun y => (k : ℚ) * y).sum = (k : ℚ) * T := by
      rw [hT, sum_map_mul_const]
    rw [h2, h3, hlen_seg] at h1
    exact h1
  -- conclude by clearing denominators
  have hsum' : (l.take k').sum = S + T := by rw [happ, List.sum_append]
  rw [listMean, listMean, hsum', hlen_take, hlen_take']
  have hkpos : (0 : ℚ) < (k : ℚ) := by exact_mod_cast hk
  have hk'pos : (0 : ℚ) < (k' : ℚ) := by
    have : (1 : ℕ) ≤ k' := le_trans hk hkk
    exact_mod_cast this
  rw [div_le_div_iff₀ hkpos hk'pos, ← hS]
  have hcast : ((k' : ℚ)) = (k : ℚ) + ((k' - k : ℕ) : ℚ) := by
    rw [Nat.cast_sub hkk]; ring
  calc S * (k' : ℚ) = S * (k : ℚ) + ((k' - k : ℕ) : ℚ) * S := by rw [hcast]; ring
    _ ≤ S * (k : ℚ) + (k : ℚ) * T := by linarith [hsum]
    _ = (S + T) * (k : ℚ) := by ring

end RSA

namespace RSA

lemma cvar_cutoff_le (v : List ℚ) (α : ℚ) (hα : α ≤ 1) (hv : v ≠ []) :
    max 1 (Int.toNat ⌈α * v.length⌉) ≤ v.length := by
  have hn : 1 ≤ v.length := List.length_pos.mpr hv
  have h1 : (⌈α * v.length⌉ : ℤ) ≤ v.length := by
    have : α * v.length ≤ (v.length : ℚ) := by
      have hnn : (0 : ℚ) ≤ (v.length : ℚ) := by positivity
      nlinarith
    calc (⌈α * v.length⌉ : ℤ) ≤ ⌈(v.length : ℚ)⌉ := Int.ceil_le_ceil this
      _ = v.length := Int.ceil_natCast v.length
  have h2 : Int.toNat ⌈α * v.length⌉ ≤ v.length := by omega
  omega

/-- C6: the empirical CVaR of `risk/cvar.py` is monotone in the tail level:
for a nonempty value vector and levels `0 < α₁ ≤ α₂ ≤ 1`,
`cvar v α₁ ≤ cvar v α₂`. -/
theorem cvar_monotone (v : List ℚ) (α₁ α₂ : ℚ)
    (h0 : 0 < α₁) (h12 : α₁ ≤ α₂) (h21 : α₂ ≤ 1) (hv : v ≠ []) :
    cvar v α₁ ≤ cvar v α₂ := by
  unfold cvar
  set s : List ℚ := v.insertionSort (· ≤ ·) with hsdef
  have hsorted : s.Sorted (· ≤ ·) := List.sorted_insertionSort (· ≤ ·) v
  have hslen : s.length = v.length := (List.perm_insertionSort (· ≤ ·) v).length_eq
  set k₁ : ℕ := max 1 (Int.toNat ⌈α₁ * v.length⌉) with hk₁
  set k₂ : ℕ := max 1 (Int.toNat ⌈α₂ * v.length⌉) with hk₂
  have hmono : k₁ ≤ k₂ := by
    have hceil : (⌈α₁ * v.length⌉ : ℤ) ≤ ⌈α₂ * v.length⌉ := by
      apply Int.ceil_le_ceil
      have hnn : (0 : ℚ) ≤ (v.length : ℚ) := by positivity
      nlinarith
    have : Int.toNat ⌈α₁ * v.length⌉ ≤ Int.toNat ⌈α₂ * v.length⌉ := by omega
    omega
  have hk1 : 1 ≤ k₁ := le_max_left 1 _
  have hk2n : k₂ ≤ s.length := by
    rw [hslen]
    exact cvar_cutoff_le v α₂ h21 hv
  exact prefixMean_mono s hsorted k₁ k₂ hk1 hmono hk2n

/-- Witness for C6 at a concrete input: `v = [3, 1, 2]`, `α₁ = 1/3`,
`α₂ = 1`. -/
theorem cvar_monotone_witness :
    cvar [3, 1, 2] (1/3) ≤ cvar [3, 1, 2] 1 :=
  cvar_monotone [3, 1, 2] (1/3) 1 (by norm_num) (by norm_num) (by norm_num)
    (by decide)

end RSA

namespace RSA

/-! ## Particle belief in log space (`core/belief.py`, `core/messages.py`,
`core/credal.py`)

Floats are idealised as real numbers; a weight vector over `n` particles is
a function `Fin n → ℝ`, a particle batch is `Fin n → Fin d → ℝ`. -/

noncomputable section

/-- Log-sum-exp of a weight vector, `log(sum(exp(w)))`. -/
def logsumexp {n : ℕ} (w : Fin n → ℝ) : ℝ :=
  Real.log (∑ i, Real.exp (w i))

/-- The normalization `Belief._normalize_log_weights`: subtract the
log-sum-exp from every log-weight.  In exact arithmetic the max-shift of the
source (`log_w_max + log(sum(exp(w - log_w_max)))`) equals `logsumexp w`. -/
def normalizeLogWeights {n : ℕ} (w : Fin n → ℝ) : Fin n → ℝ :=
  fun i => w i - logsumexp w

/-- Exp-normalized probability weights, as computed throughout
`core/belief.py` by `exp(w - max(w))` followed by division by the sum;
subtracting the max is a pure overflow guard and cancels exactly. -/
def pweights {n : ℕ} (w : Fin n → ℝ) : Fin n → ℝ :=
  fun i => Real.exp (w i) / ∑ j, Real.exp (w j)

/-- Particle belief: positions and log-weights (`Belief` in
`core/belief.py`; the optional credal set is returned explicitly by
`apply_message` below instead of being a mutable attribute). -/
structure Belief (n d : ℕ) where
  particles : Fin n → Fin d → ℝ
  log_weights : Fin n → ℝ

/-- Log-density of a one-dimensional Gaussian, `scipy.stats.norm.logpdf`. -/
def normLogPdf (x loc scale : ℝ) : ℝ :=
  -Real.log (scale * Real.sqrt (2 * Real.pi)) - (x - loc) ^ 2 / (2 * scale ^ 2)

/-- Observation update `Belief.update_obs`: add the per-dimension Gaussian
log-likelihoods of the observation to every log-weight, then normalize. -/
def Belief.update_obs {n d : ℕ} (b : Belief n d) (observation : Fin d → ℝ)
    (obs_noise : ℝ) : Belief n d where
  particles := b.particles
  log_weights := normalizeLogWeights
    (fun i => b.log_weights i + ∑ j, normLogPdf (observation j) (b.particles i j) obs_noise)

/-- Source reliability state (`SourceTrust` in `core/messages.py`). -/
structure SourceTrust where
  alpha : ℝ
  beta : ℝ
  r_s : ℝ

/-- The logit `SourceTrust.logit`: clip `r_s` into `[1e-6, 1 - 1e-6]` and
return `log(r / (1 - r))`.  `np.clip(x, lo, hi)` is `min (max x lo) hi`. -/
def SourceTrust.logit (st : SourceTrust) : ℝ :=
  let r := min (max st.r_s (1 / 1000000)) (1 - 1 / 1000000)
  Real.log (r / (1 - r))

/-- The Beta-Bernoulli update `SourceTrust.update`: add `weight` to `alpha`
on success, else to `beta`, and recompute `r_s = alpha / (alpha + beta)`.
The source performs no validation of `weight`. -/
def SourceTrust.update (st : SourceTrust) (success : Bool) (weight : ℝ) :
    SourceTrust :=
  let a := if success then st.alpha + weight else st.alpha
  let b := if success then st.beta else st.beta + weight
  { alpha := a, beta := b, r_s := a / (a + b) }

/-- Exogenous message (`Message` in `core/messages.py`); the predicate `A_c`
maps the particle batch to a boolean vector. -/
structure Message (n d : ℕ) where
  claim : String
  source : String
  value : BelnapValue
  A_c : (Fin n → Fin d → ℝ) → Fin n → Bool

/-- Credal set: a list of extreme posteriors (`CredalSet` in
`core/credal.py`); `K` is the number of posteriors. -/
structure CredalSet (n d : ℕ) where
  posteriors : List (Belief n d)

/-- Number of posteriors, the attribute `K` of `CredalSet`. -/
def CredalSet.K {n d : ℕ} (Γ : CredalSet n d) : ℕ := Γ.posteriors.length

/-- Credal-set construction `create_credal_from_logit_interval`: for
`k = 0..K-1` take the logit `λ_k = -λ_s + 2 λ_s k / (K-1)` (or `0` when
`K = 1`), add `+λ_k` where the claim holds and `-λ_k` where it does not,
and normalize. -/
def create_credal_from_logit_interval {n d : ℕ} (base : Belief n d)
    (A_c : (Fin n → Fin d → ℝ) → Fin n → Bool) (lambda_s : ℝ) (K : ℕ) :
    CredalSet n d where
  posteriors := (List.range K).map fun k =>
    let logit_value : ℝ :=
      if K = 1 then 0 else -lambda_s + 2 * lambda_s * k / (K - 1)
    { particles := base.particles
      log_weights := normalizeLogWeights fun i =>
        base.log_weights i +
          (if A_c base.particles i then logit_value else -logit_value) }

/-- Message update `Belief.apply_message`: add the Belnap-dependent
log-multiplier (`±λ_s` for TRUE/FALSE, `0` for NEITHER and BOTH) and
normalize; a BOTH message additionally produces a credal set with `K = 5`
extreme posteriors, returned as the second component. -/
def Belief.apply_message {n d : ℕ} (b : Belief n d) (message : Message n d)
    (source_trust : SourceTrust) : Belief n d × Option (CredalSet n d) :=
  let lambda_s := source_trust.logit
  let claim_satisfied := message.A_c b.particles
  let log_mult : Fin n → ℝ :=
    match message.value with
    | BelnapValue.TRUE => fun i => if claim_satisfied i then lambda_s else -lambda_s
    | BelnapValue.FALSE => fun i => if claim_satisfied i then -lambda_s else lambda_s
    | BelnapValue.NEITHER => fun _ => 0
    | BelnapValue.BOTH => fun _ => 0
  let credal : Option (CredalSet n d) :=
    match message.value with
    | BelnapValue.BOTH =>
        some (create_credal_from_logit_interval b message.A_c lambda_s 5)
    | _ => none
  (⟨b.particles, normalizeLogWeights fun i => b.log_weights i + log_mult i⟩, credal)

/-- Total variation distance between the probability weights of two
beliefs over the same particle count. -/
def tvDist {n d : ℕ} (b₁ b₂ : Belief n d) : ℝ :=
  (1 / 2) * ∑ i, |pweights b₁.log_weights i - pweights b₂.log_weights i|

end

end RSA

namespace RSA

lemma sum_exp_pos {n : ℕ} (hn : 0 < n) (w : Fin n → ℝ) :
    0 < ∑ i, Real.exp (w i) := by
  have : Nonempty (Fin n) := Fin.pos_iff_nonempty.mp hn
  exact Finset.sum_pos (fun i _ => Real.exp_pos (w i)) Finset.univ_nonempty

lemma logsumexp_sub_const {n : ℕ} (hn : 0 < n) (w : Fin n → ℝ) (c : ℝ) :
    logsumexp (fun i => w i - c) = logsumexp w - c := by
  unfold logsumexp
  have h1 : (∑ i, Real.exp (w i - c)) = (∑ i, Real.exp (w i)) * Real.exp (-c) := by
    rw [Finset.sum_mul]
    congr 1
    funext i
    rw [← Real.exp_add]
    ring_nf
  rw [h1, Real.log_mul (ne_of_gt (sum_exp_pos hn w)) (Real.exp_ne_zero _),
    Real.log_exp]
  ring

lemma logsumexp_normalize {n : ℕ} (hn : 0 < n) (w : Fin n → ℝ) :
    logsumexp (normalizeLogWeights w) = 0 := by
  unfold normalizeLogWeights
  rw [logsumexp_sub_const hn w (logsumexp w)]
  ring

lemma normalize_then_add {n : ℕ} (hn : 0 < n) (w m : Fin n → ℝ) :
    normalizeLogWeights (fun i => normalizeLogWeights w i + m i)
      = normalizeLogWeights (fun i => w i + m i) := by
  unfold normalizeLogWeights
  funext i
  have hshift : logsumexp (fun j => w j + m j - logsumexp w)
      = logsumexp (fun j => w j + m j) - logsumexp w := by
    exact logsumexp_sub_const hn (fun j => w j + m j) (logsumexp w)
  have harg : (fun j => w j - logsumexp w + m j)
      = fun j => w j + m j - logsumexp w := by
    funext j; ring
  rw [harg, hshift]
  ring

/-- C2: after `update_obs` (any finite observation, positive noise) and
after `apply_message` (any message value, any trust), the log-sum-exp of
the log-weights is `0` up to `1e-10`; in exact arithmetic it is exactly
`0`. -/
theorem updates_leave_weights_normalized {n d : ℕ} (hn : 0 < n)
    (b : Belief n d) (observation : Fin d → ℝ) (obs_noise : ℝ)
    (hσ : 0 < obs_noise) (message : Message n d) (source_trust : SourceTrust) :
    |logsumexp (b.update_obs observation obs_noise).log_weights| ≤
        1 / 10000000000 ∧
    |logsumexp (b.apply_message message source_trust).1.log_weights| ≤
        1 / 10000000000 := by
  constructor
  · show |logsumexp (normalizeLogWeights _)| ≤ _
    rw [logsumexp_normalize hn]
    norm_num
  · show |logsumexp (normalizeLogWeights _)| ≤ _
    rw [logsumexp_normalize hn]
    norm_num

/-- Witness for C2 at a concrete input: two particles in one dimension,
observation `1`, noise `1`, a TRUE message from a `0.7`-reliability
source. -/
theorem updates_leave_weights_normalized_witness :
    |logsumexp ((Belief.update_obs ⟨fun _ _ => 0, fun _ => 0⟩ (fun _ => 1) 1 :
        Belief 2 1)).log_weights| ≤ 1 / 10000000000 ∧
    |logsumexp ((Belief.apply_message ⟨fun _ _ => 0, fun _ => 0⟩
        ⟨"c", "s", BelnapValue.TRUE, fun _ _ => true⟩
        ⟨7, 3, 7 / 10⟩ : Belief 2 1 × _)).1.log_weights| ≤ 1 / 10000000000 :=
  updates_leave_weights_normalized (by norm_num) ⟨fun _ _ => 0, fun _ => 0⟩
    (fun _ => 1) 1 (by norm_num) ⟨"c", "s", BelnapValue.TRUE, fun _ _ => true⟩
    ⟨7, 3, 7 / 10⟩

/-- C1: an observation update and a message update with Belnap value TRUE,
FALSE or NEITHER commute exactly: the total variation distance between the
two composition orders is `0`, hence at most `1e-6`. -/
theorem obs_message_updates_commute {n d : ℕ} (hn : 0 < n) (b : Belief n d)
    (observation : Fin d → ℝ) (obs_noise : ℝ) (message : Message n d)
    (source_trust : SourceTrust)
    (hval : message.value = BelnapValue.TRUE ∨
      message.value = BelnapValue.FALSE ∨
      message.value = BelnapValue.NEITHER) :
    tvDist
      ((Belief.update_obs b observation obs_noise).apply_message message
        source_trust).1
      (Belief.update_obs (b.apply_message message source_trust).1 observation
        obs_noise) ≤ 1 / 1000000 := by
  have hw :
      ((Belief.update_obs b observation obs_noise).apply_message message
        source_trust).1.log_weights =
      (Belief.update_obs (b.apply_message message source_trust).1 observation
        obs_noise).log_weights := by
    simp only [Belief.update_obs, Belief.apply_message]
    rw [normalize_then_add hn, normalize_then_add hn]
    exact congrArg normalizeLogWeights (funext fun i => by ring)
  unfold tvDist
  rw [hw]
  simp

/-- Witness for C1 at a concrete input: two particles in one dimension,
observation `1`, noise `1`, a TRUE message from a `0.7`-reliability
source. -/
theorem obs_message_updates_commute_witness :
    tvDist
      ((Belief.update_obs (⟨fun _ _ => 0, fun _ => 0⟩ : Belief 2 1)
          (fun _ => 1) 1).apply_message
        ⟨"c", "s", BelnapValue.TRUE, fun _ _ => true⟩ ⟨7, 3, 7 / 10⟩).1
      (Belief.update_obs
        ((⟨fun _ _ => 0, fun _ => 0⟩ : Belief 2 1).apply_message
          ⟨"c", "s", BelnapValue.TRUE, fun _ _ => true⟩ ⟨7, 3, 7 / 10⟩).1
        (fun _ => 1) 1) ≤ 1 / 1000000 :=
  obs_message_updates_commute (by norm_num) ⟨fun _ _ => 0, fun _ => 0⟩
    (fun _ => 1) 1 ⟨"c", "s", BelnapValue.TRUE, fun _ _ => true⟩
    ⟨7, 3, 7 / 10⟩ (Or.inl rfl)

end RSA

namespace RSA

noncomputable section

/-- The inverse-CDF evaluation points of `Belief.resample`:
`positions = (np.arange(n) + u) / n` where `u = np.random.uniform()` is a
single draw from `[0, 1)`. -/
def resamplePositions (n : ℕ) (u : ℝ) : Fin n → ℝ :=
  fun j => ((j : ℕ) + u) / n

/-- Model of `np.searchsorted(c, x)` (side left) on a sorted array: the
number of entries strictly below `x`. -/
def searchsortedLeft {n : ℕ} (c : Fin n → ℝ) (x : ℝ) : ℕ :=
  (Finset.univ.filter fun i => c i < x).card

/-- Systematic resampling `Belief.resample`; the single uniform draw `u`
(from `[0, 1)`) and the standard-normal jitter draws are passed in
explicitly.  Particles are replaced by the inverse-CDF selections at
`resamplePositions`, log-weights are reset to the uniform `-log n`, and
`0.01`-scaled jitter is added. -/
def Belief.resample {n d : ℕ} (b : Belief n d) (u : ℝ)
    (jitter : Fin n → Fin d → ℝ) : Belief n d where
  particles := fun j l =>
    (let idx := searchsortedLeft
        (fun j' : Fin n => ∑ i ∈ Finset.Iic j', pweights b.log_weights i)
        (resamplePositions n u j)
     if h : idx < n then b.particles ⟨idx, h⟩ l else 0) + jitter j l * (1 / 100)
  log_weights := fun _ => -Real.log n

/-- C7 counterexample: `u = 1/2` is a legal value of the single
`np.random.uniform()` draw of `Belief.resample`, yet no draw from the
claimed range `[0, 1/N)` (here `[0, 1/2)` with `N = 2`) reproduces the
positions the code evaluates at that draw, so the claimed description of
the draw range is false of the code. -/
theorem resample_draw_counterexample :
    (0 ≤ ((1 : ℝ) / 2) ∧ ((1 : ℝ) / 2) < 1) ∧
    ¬ ∃ u : ℝ, 0 ≤ u ∧ u < 1 / 2 ∧
        ∀ j : Fin 2, resamplePositions 2 u j = resamplePositions 2 (1 / 2) j := by
  refine ⟨⟨by norm_num, by norm_num⟩, ?_⟩
  rintro ⟨u, hu0, hu1, h⟩
  have h0 := h 0
  unfold resamplePositions at h0
  simp only [Fin.val_zero, Nat.cast_zero] at h0
  have : u = 1 / 2 := by
    field_simp at h0
    linarith
  linarith

/-- C7 amended: `Belief.resample` draws a single uniform `u ∈ [0, 1)` and
uses positions `p_j = (j + u)/N` — equivalently a single offset
`u/N ∈ [0, 1/N)` added to each stratum start `j/N` — and afterwards every
log-weight equals `-log N`. -/
theorem resample_positions_and_weights {n d : ℕ} (b : Belief n d) (u : ℝ)
    (jitter : Fin n → Fin d → ℝ) (hn : 0 < n) (hu0 : 0 ≤ u) (hu1 : u < 1) :
    (∀ i, (b.resample u jitter).log_weights i = -Real.log n) ∧
    (∀ j : Fin n, resamplePositions n u j = (j : ℕ) / n + u / n) ∧
    0 ≤ u / n ∧ u / n < 1 / n := by
  have hnpos : (0 : ℝ) < n := by exact_mod_cast hn
  refine ⟨fun i => rfl, fun j => ?_, div_nonneg hu0 (le_of_lt hnpos), ?_⟩
  · unfold resamplePositions
    rw [add_div]
  · exact div_lt_div_of_pos_right hu1 hnpos

/-- Witness for the amended C7 at a concrete input: two particles, one
dimension, draw `u = 1/2`, zero jitter. -/
theorem resample_positions_and_weights_witness :
    (∀ i, ((Belief.resample ⟨fun _ _ => 0, fun _ => 0⟩ (1 / 2)
        (fun _ _ => 0) : Belief 2 1)).log_weights i = -Real.log 2) ∧
    (∀ j : Fin 2, resamplePositions 2 (1 / 2) j = (j : ℕ) / 2 + (1 / 2) / 2) ∧
    0 ≤ (1 / 2 : ℝ) / 2 ∧ (1 / 2 : ℝ) / 2 < 1 / 2 := by
  have h := resample_positions_and_weights
    (⟨fun _ _ => 0, fun _ => 0⟩ : Belief 2 1) (1 / 2) (fun _ _ => 0)
    (by norm_num) (by norm_num) (by norm_num)
  simpa using h

end

end RSA

namespace RSA

noncomputable section

/-- Python's `min` over a nonempty list (the empty case is unreachable in
the source as it is guarded by the `K == 0` check). -/
def listMinD : List ℝ → ℝ
  | [] => 0
  | x :: xs => xs.foldl min x

/-- Weighted expectation of `f` under one posterior, as computed inside
`CredalSet.lower_expectation`: normalize the log-weights by stabilized
exp-normalize, then sum `w_i * f(x_i)`. -/
def expectation {n d : ℕ} (b : Belief n d) (f : (Fin d → ℝ) → ℝ) : ℝ :=
  ∑ i, pweights b.log_weights i * f (b.particles i)

/-- Weighted per-dimension variance of one posterior, as computed inside
`CredalSet.variance`: `E[(x - E[x])^2]` under exp-normalized weights. -/
def beliefVarDim {n d : ℕ} (b : Belief n d) (l : Fin d) : ℝ :=
  let μ := ∑ i, pweights b.log_weights i * b.particles i l
  ∑ i, pweights b.log_weights i * (b.particles i l - μ) ^ 2

/-- Lower expectation `CredalSet.lower_expectation`: `ValueError` when the
credal set is empty, otherwise the minimum of the posterior
expectations. -/
def CredalSet.lower_expectation {n d : ℕ} (Γ : CredalSet n d)
    (f : (Fin d → ℝ) → ℝ) : Except String ℝ :=
  if Γ.posteriors.length = 0 then
    Except.error "Cannot compute lower expectation on empty credal set"
  else
    Except.ok (listMinD (Γ.posteriors.map fun b => expectation b f))

/-- Conservative mean `CredalSet.mean`: `ValueError` when empty, otherwise
the per-dimension lower expectation of the coordinate functions. -/
def CredalSet.mean {n d : ℕ} (Γ : CredalSet n d) :
    Except String (Fin d → ℝ) :=
  if Γ.posteriors.length = 0 then
    Except.error "Cannot compute mean of empty credal set"
  else
    Except.ok fun l => listMinD (Γ.posteriors.map fun b => expectation b fun x => x l)

/-- Upper variance `CredalSet.variance`: `ValueError` when empty, otherwise
the per-dimension maximum posterior variance, folded from `np.zeros`. -/
def CredalSet.variance {n d : ℕ} (Γ : CredalSet n d) :
    Except String (Fin d → ℝ) :=
  if Γ.posteriors.length = 0 then
    Except.error "Cannot compute variance of empty credal set"
  else
    Except.ok fun l => (Γ.posteriors.map fun b => beliefVarDim b l).foldl max 0

/-- C9: `lower_expectation`, `mean` and `variance` on a `CredalSet` return
a `ValueError` exactly when the set holds zero posteriors; for `K ≥ 1`
each returns a value computed from the stored posteriors (a real number,
hence finite in this exact-arithmetic model). -/
theorem credal_empty_errors_nonempty_values {n d : ℕ} (Γ : CredalSet n d)
    (f : (Fin d → ℝ) → ℝ) :
    ((Γ.lower_expectation f).isOk ↔ 0 < Γ.K) ∧
    (Γ.mean.isOk ↔ 0 < Γ.K) ∧
    (Γ.variance.isOk ↔ 0 < Γ.K) := by
  unfold CredalSet.lower_expectation CredalSet.mean CredalSet.variance CredalSet.K
  by_cases h : Γ.posteriors.length = 0 <;>
    simp [h, Except.isOk, Except.toBool, Nat.pos_of_ne_zero, Nat.pos_iff_ne_zero]

end

end RSA

namespace RSA

/-! ## CBF-QP safety filter (`safety/cbf.py`) and agent fallback
(`policy/agent.py`)

`SafetyFilter.filter` builds a QP and calls `prob.solve` inside a
`try/except` that catches every exception and returns
`(np.zeros(m), float("inf"))`.  On a normal return it only logs a warning
for a status outside `{OPTIMAL, OPTIMAL_INACCURATE}`, then returns
`(u.value, slack.value)`; but when the solver produced no iterate
(`slack.value is None`, as cvxpy yields for infeasible / unbounded /
solver-error statuses), the comparison `slack_value > 1e-5` raises a
`TypeError`, which the same `except` turns into `(np.zeros(m), inf)`.
The solver call itself is external, so its outcome is the input of the
embedding. -/

/-- cvxpy problem statuses relevant to `SafetyFilter.filter`. -/
inductive QPStatus where
  | optimal
  | optimal_inaccurate
  | infeasible
  | infeasible_inaccurate
  | unbounded
  | unbounded_inaccurate
  | solver_error
deriving DecidableEq

/-- A Python float that may be `inf` (the embedding never needs NaN). -/
inductive FloatV where
  | fin (q : ℚ)
  | inf
deriving DecidableEq

/-- Result of a `prob.solve` call that returned: the problem status and the
values of the decision variables (`None` when the solver produced no
iterate). -/
structure QPSolveResult where
  status : QPStatus
  uValue : Option (List ℚ)
  slackValue : Option ℚ
deriving DecidableEq

/-- Outcome of `prob.solve`: it either raises or returns. -/
inductive QPSolveOutcome where
  | raises (msg : String)
  | returns (r : QPSolveResult)

/-- The status / exception handling of `SafetyFilter.filter` for control
dimension `m`, as a function of the solver outcome.  `Except.error` would
model an exception escaping the method; the `try/except` catches every
exception, so every branch returns `Except.ok`. -/
def SafetyFilter.filter (m : ℕ) (outcome : QPSolveOutcome) :
    Except String (Option (List ℚ) × Option FloatV) :=
  match outcome with
  | QPSolveOutcome.raises _ =>
      Except.ok (some (List.replicate m 0), some FloatV.inf)
  | QPSolveOutcome.returns r =>
      match r.slackValue with
      | none => Except.ok (some (List.replicate m 0), some FloatV.inf)
      | some s => Except.ok (r.uValue, some (FloatV.fin s))

/-- The filter-result handling in `Agent.act` (lines 221-243 of
`policy/agent.py`): `np.all(np.isfinite(u_safe))` raises on `None`
(caught, emergency zero action); rational values are always finite, so a
present `u_safe` is emitted unchanged. -/
def Agent.emittedAction (u_desired : List ℚ)
    (filter_result : Option (List ℚ) × Option FloatV) : List ℚ :=
  match filter_result.1 with
  | none => List.replicate u_desired.length 0
  | some u_safe => u_safe

/-- C3 counterexample: on the concrete infeasible solve (a status that is
neither optimal nor optimal-inaccurate) the filter does not fail - there
is no `SafetyFilterError` anywhere in the source - it returns normally
with the zero action and infinite slack. -/
theorem safety_filter_no_error_counterexample :
    SafetyFilter.filter 2
        (QPSolveOutcome.returns ⟨QPStatus.infeasible, none, none⟩) =
      Except.ok (some [(0 : ℚ), 0], some FloatV.inf) ∧
    QPStatus.infeasible ≠ QPStatus.optimal ∧
    QPStatus.infeasible ≠ QPStatus.optimal_inaccurate := by
  refine ⟨rfl, by decide, by decide⟩

/-- C3 amended: when the QP solver finishes with a status other than
optimal or optimal-inaccurate and hence returns no slack iterate, the
filter does not raise any error: it internally falls into the `except`
branch (the comparison of the missing slack value fails) and returns the
zero action with slack `+inf`, and the calling agent emits exactly that
zero action for the step. -/
theorem safety_filter_bad_status_zero_action (m : ℕ) (u_desired : List ℚ)
    (r : QPSolveResult) (h1 : r.status ≠ QPStatus.optimal)
    (h2 : r.status ≠ QPStatus.optimal_inaccurate)
    (h3 : r.slackValue = none) :
    SafetyFilter.filter m (QPSolveOutcome.returns r) =
      Except.ok (some (List.replicate m 0), some FloatV.inf) ∧
    Agent.emittedAction u_desired
        (some (List.replicate m 0), some FloatV.inf) = List.replicate m 0 := by
  constructor
  · simp [SafetyFilter.filter, h3]
  · rfl

/-- Witness for the amended C3 at a concrete input: `m = 2`, desired
control `[1, 0]`, an infeasible solve with no iterate. -/
theorem safety_filter_bad_status_zero_action_witness :
    SafetyFilter.filter 2
        (QPSolveOutcome.returns ⟨QPStatus.infeasible_inaccurate, none, none⟩) =
      Except.ok (some (List.replicate 2 0), some FloatV.inf) ∧
    Agent.emittedAction [(1 : ℚ), 0]
        (some (List.replicate 2 0), some FloatV.inf) = List.replicate 2 0 :=
  safety_filter_bad_status_zero_action 2 [(1 : ℚ), 0]
    ⟨QPStatus.infeasible_inaccurate, none, none⟩ (by decide) (by decide) rfl

/-- C10: if `prob.solve` raises, `SafetyFilter.filter` catches the
exception and returns the zero control of length `m` paired with slack
`+inf`; moreover no outcome whatsoever makes the filter propagate an
exception to the caller. -/
theorem filter_catches_solver_exception (m : ℕ) (msg : String) :
    SafetyFilter.filter m (QPSolveOutcome.raises msg) =
      Except.ok (some (List.replicate m 0), some FloatV.inf) ∧
    (List.replicate m (0 : ℚ)).length = m ∧
    ∀ outcome : QPSolveOutcome, ∃ result,
      SafetyFilter.filter m outcome = Except.ok result := by
  refine ⟨rfl, List.length_replicate m 0, fun outcome => ?_⟩
  match outcome with
  | QPSolveOutcome.raises _ => exact ⟨_, rfl⟩
  | QPSolveOutcome.returns r =>
      match h : r.slackValue with
      | none =>
          exact ⟨(some (List.replicate m 0), some FloatV.inf),
            by simp [SafetyFilter.filter, h]⟩
      | some s =>
          exact ⟨(r.uValue, some (FloatV.fin s)),
            by simp [SafetyFilter.filter, h]⟩

end RSA

namespace RSA

/-- C8 counterexample: `SourceTrust.update` performs no validation of
`weight`: the call with `weight = -1 ≤ 0` on the default prior
`(α, β) = (7, 3)` goes through and changes `α` to `6` instead of failing
with a domain error and leaving `α`, `β` unchanged. -/
theorem sourcetrust_update_no_rejection_counterexample :
    ((-1 : ℝ) ≤ 0) ∧
    (SourceTrust.update ⟨7, 3, 7 / 10⟩ true (-1)).alpha = 6 ∧
    (SourceTrust.update ⟨7, 3, 7 / 10⟩ true (-1)).beta = 3 ∧
    ((6 : ℝ) ≠ 7) := by
  refine ⟨by norm_num, ?_, ?_, by norm_num⟩ <;>
    simp [SourceTrust.update] <;> norm_num

/-- C8 amended: `SourceTrust.update` accepts every weight, positive or
not: it adds `weight` to `α` if `success` else to `β`, and recomputes
`r_s = α / (α + β)` from the updated counts. -/
theorem sourcetrust_update_unconditional (st : SourceTrust) (success : Bool)
    (weight : ℝ) :
    (st.update success weight).alpha =
      (if success then st.alpha + weight else st.alpha) ∧
    (st.update success weight).beta =
      (if success then st.beta else st.beta + weight) ∧
    (st.update success weight).r_s =
      (st.update success weight).alpha /
        ((st.update success weight).alpha + (st.update success weight).beta) := by
  cases success <;> simp [SourceTrust.update]

end RSA

namespace RSA

noncomputable section

/-! ## Weighted CVaR (`risk/cvar.py`, function `cvar_weighted`)

The function is translated stage by stage, matching the source's comments:
normalize the log-weights stably, sort by value ascending, accumulate the
weights, cut off at the α-quantile, average the tail. -/

/-- Model of `np.max` over a nonempty array (stabilization shift). -/
def listMaxD : List ℝ → ℝ
  | [] => 0
  | x :: xs => xs.foldl max x

/-- The stabilized exp-normalization
`weights = np.exp(log_weights - np.max(log_weights)); weights /= sum`. -/
def expNormWeights (log_weights : List ℝ) : List ℝ :=
  let wraw := log_weights.map fun lw => Real.exp (lw - listMaxD log_weights)
  wraw.map fun w => w / wraw.sum

/-- Sorting values together with their weights by value ascending
(`np.argsort(values)` followed by fancy indexing of both arrays). -/
def sortPairsByValue (values weights : List ℝ) : List (ℝ × ℝ) :=
  (values.zip weights).insertionSort fun p q => p.1 ≤ q.1

/-- Running cumulative sums, `np.cumsum` (no leading zero). -/
def cumsumFrom (acc : ℝ) : List ℝ → List ℝ
  | [] => []
  | w :: ws => (acc + w) :: cumsumFrom (acc + w) ws

/-- Cumulative sum of a list of weights, `np.cumsum`. -/
def cumsumList (ws : List ℝ) : List ℝ := cumsumFrom 0 ws

/-- The tail average of `cvar_weighted`: weighted mean of the first
`cutoff` sorted values when the tail weight exceeds `1e-12`, otherwise the
worst (first sorted) value. -/
def weightedTailAverage (sorted_values sorted_weights : List ℝ)
    (cutoff : ℕ) : ℝ :=
  let tail_weights := sorted_weights.take cutoff
  let tail_values := sorted_values.take cutoff
  if 1 / 1000000000000 < tail_weights.sum then
    (List.zipWith (fun w v => w * v) tail_weights tail_values).sum /
      tail_weights.sum
  else
    sorted_values.headD 0

/-- Weighted CVaR (`cvar_weighted` in `risk/cvar.py`).  The cutoff is
`np.searchsorted(cumsum, alpha, side="right")` - on the sorted cumulative
sums this is the number of entries `≤ alpha` - forced up to at least `1`
(`if cutoff_idx == 0: cutoff_idx = 1`). -/
def cvar_weighted (log_weights values : List ℝ) (alpha : ℝ) : ℝ :=
  let sp := sortPairsByValue values (expNormWeights log_weights)
  let sorted_values := sp.map Prod.fst
  let sorted_weights := sp.map Prod.snd
  let cumsum := cumsumList sorted_weights
  let cutoff_idx := max 1 (cumsum.countP fun c => decide (c ≤ alpha))
  weightedTailAverage sorted_values sorted_weights cutoff_idx

/-- The weighted CVaR the claim describes, for comparison with
`cvar_weighted`: identical stages, but the cutoff takes everything "up to
and including the first index `j` at which the cumulative weight crosses
`α`" (first entry `≥ α`, inclusively). -/
def cvarWeightedSpec (log_weights values : List ℝ) (alpha : ℝ) : ℝ :=
  let sp := sortPairsByValue values (expNormWeights log_weights)
  let sorted_values := sp.map Prod.fst
  let sorted_weights := sp.map Prod.snd
  let cumsum := cumsumList sorted_weights
  let cutoff_idx := (cumsum.findIdx fun c => decide (alpha ≤ c)) + 1
  weightedTailAverage sorted_values sorted_weights cutoff_idx

/-- The weighted CVaR with the cutoff as the code computes it, phrased as
in the amended claim: keep the samples strictly before the first index at
which the cumulative weight strictly exceeds `α` - so the crossing sample
itself is excluded - but always keep at least one sample. -/
def cvarWeightedAmended (log_weights values : List ℝ) (alpha : ℝ) : ℝ :=
  let sp := sortPairsByValue values (expNormWeights log_weights)
  let sorted_values := sp.map Prod.fst
  let sorted_weights := sp.map Prod.snd
  let cumsum := cumsumList sorted_weights
  let cutoff_idx := max 1 (cumsum.findIdx fun c => decide (alpha < c))
  weightedTailAverage sorted_values sorted_weights cutoff_idx

end

end RSA

namespace RSA

lemma cumsumFrom_ge (ws : List ℝ) :
    ∀ acc, (∀ w ∈ ws, 0 ≤ w) → ∀ y ∈ cumsumFrom acc ws, acc ≤ y := by
  induction ws with
  | nil => intro acc _ y hy; simp [cumsumFrom] at hy
  | cons w ws ih =>
      intro acc h y hy
      have hw : 0 ≤ w := h w (List.mem_cons_self w ws)
      rw [cumsumFrom] at hy
      rcases List.mem_cons.mp hy with hy | hy
      · rw [hy]; linarith
      · have := ih (acc + w) (fun x hx => h x (List.mem_cons_of_mem w hx)) y hy
        linarith

lemma cumsumFrom_sorted (ws : List ℝ) :
    ∀ acc, (∀ w ∈ ws, 0 ≤ w) → (cumsumFrom acc ws).Pairwise (· ≤ ·) := by
  induction ws with
  | nil => intro acc _; simp [cumsumFrom]
  | cons w ws ih =>
      intro acc h
      rw [cumsumFrom, List.pairwise_cons]
      refine ⟨fun y hy => ?_, ih (acc + w) fun x hx => h x (List.mem_cons_of_mem w hx)⟩
      exact cumsumFrom_ge ws (acc + w)
        (fun x hx => h x (List.mem_cons_of_mem w hx)) y hy

lemma countP_le_eq_findIdx_lt (l : List ℝ) (x : ℝ)
    (hl : l.Pairwise (· ≤ ·)) :
    (l.countP fun c => decide (c ≤ x)) = l.findIdx fun c => decide (x < c) := by
  induction l with
  | nil => simp
  | cons a t ih =>
      rw [List.pairwise_cons] at hl
      obtain ⟨ha, ht⟩ := hl
      by_cases hax : a ≤ x
      · rw [List.countP_cons, List.findIdx_cons]
        simp [hax, not_lt.mpr hax, ih ht]
      · push_neg at hax
        rw [List.countP_cons, List.findIdx_cons]
        have h0 : t.countP (fun c => decide (c ≤ x)) = 0 := by
          rw [List.countP_eq_zero]
          intro y hy
          have : a ≤ y := ha y hy
          simp only [decide_eq_true_eq]
          linarith
        simp [hax, not_le.mpr hax, h0]

lemma expNormWeights_nonneg (log_weights : List ℝ) :
    ∀ w ∈ expNormWeights log_weights, 0 ≤ w := by
  intro w hw
  unfold expNormWeights at hw
  simp only [List.mem_map] at hw
  obtain ⟨a, ⟨b, _, rfl⟩, rfl⟩ := hw
  apply div_nonneg (le_of_lt (Real.exp_pos _))
  apply List.sum_nonneg
  intro y hy
  simp only [List.mem_map] at hy
  obtain ⟨c, _, rfl⟩ := hy
  exact le_of_lt (Real.exp_pos _)

lemma sortPairs_snd_nonneg (values weights : List ℝ)
    (h : ∀ w ∈ weights, 0 ≤ w) :
    ∀ w ∈ (sortPairsByValue values weights).map Prod.snd, 0 ≤ w := by
  intro w hw
  simp only [List.mem_map] at hw
  obtain ⟨p, hp, rfl⟩ := hw
  have hp' : p ∈ values.zip weights :=
    (List.perm_insertionSort _ _).subset hp
  exact h p.2 (List.of_mem_zip hp').2

/-- C5 amended: `cvar_weighted` normalizes the weights, sorts by value
ascending, accumulates the weights, and averages the samples that lie
strictly before the first index at which the cumulative weight strictly
exceeds `α` - the crossing sample itself is excluded - keeping at least
one sample; when the kept weight is `≤ 1e-12` it returns the worst
value. -/
theorem cvar_weighted_eq_amended (log_weights values : List ℝ) (alpha : ℝ) :
    cvar_weighted log_weights values alpha =
      cvarWeightedAmended log_weights values alpha := by
  simp only [cvar_weighted, cvarWeightedAmended]
  have hsorted :
      (cumsumList ((sortPairsByValue values
          (expNormWeights log_weights)).map Prod.snd)).Pairwise (· ≤ ·) :=
    cumsumFrom_sorted _ 0
      (sortPairs_snd_nonneg values _ (expNormWeights_nonneg log_weights))
  rw [countP_le_eq_findIdx_lt _ alpha hsorted]

end RSA

namespace RSA

/-- C5 counterexample: for equal weights on values `[0, 1]` and `α = 3/5`
the cumulative weights are `[1/2, 1]`, so the first crossing of `α` is at
index `1`; the claim's rule ("up to and including index j") would average
both samples and give `1/2`, but `cvar_weighted` keeps only the samples
with cumulative weight `≤ α` and returns `0`. -/
theorem cvar_weighted_crossing_counterexample :
    cvar_weighted [0, 0] [0, 1] (3 / 5) = 0 ∧
    cvarWeightedSpec [0, 0] [0, 1] (3 / 5) = 1 / 2 ∧
    (0 : ℝ) ≠ 1 / 2 := by
  have hw : expNormWeights [0, 0] = [1 / 2, 1 / 2] := by
    norm_num [expNormWeights, listMaxD, Real.exp_zero]
  have hsp : sortPairsByValue [0, 1] [1 / 2, 1 / 2] =
      [((0 : ℝ), (1 / 2 : ℝ)), (1, 1 / 2)] := by
    norm_num [sortPairsByValue, List.insertionSort, List.orderedInsert]
  have hcs : cumsumList [(1 / 2 : ℝ), 1 / 2] = [1 / 2, 1] := by
    norm_num [cumsumList, cumsumFrom]
  refine ⟨?_, ?_, by norm_num⟩
  · rw [cvar_weighted, hw, hsp]
    norm_num [hcs, List.countP_cons, weightedTailAverage]
  · rw [cvarWeightedSpec, hw, hsp]
    norm_num [hcs, List.findIdx_cons, weightedTailAverage]

end RSA
